import Mathlib

/-!
Verification of the `overwatch` configuration-parsing crate
(`src/configuration/src/lib.rs`).

The source parses lines of the form `include /a, /b` / `exclude /a, /b`
with the `nom` combinators.  We embed the relevant parsers shallowly over
`List Char` (a faithful model of Rust `&str` slices): a parser is a
function `List Char → Option (List Char × α)` where `none` is a `nom`
error (the crate uses error type `()`, so errors carry no data) and
`some (tail, v)` is `Ok((tail, v))`.
-/

namespace Overwatch

/-- Character class of `nom`'s `multispace0` / `multispace1`:
space, tab, carriage return and line feed. -/
def isMultispace (c : Char) : Bool :=
  c = ' ' || c = '\t' || c = '\r' || c = '\n'

/-- Rust's `char::is_whitespace` (the Unicode `White_Space` property),
used by `str::trim`. -/
def isRustWhitespace (c : Char) : Bool :=
  let n := c.toNat
  n = 0x09 || n = 0x0a || n = 0x0b || n = 0x0c || n = 0x0d || n = 0x20 ||
  n = 0x85 || n = 0xa0 || n = 0x1680 || (0x2000 ≤ n && n ≤ 0x200a) ||
  n = 0x2028 || n = 0x2029 || n = 0x202f || n = 0x205f || n = 0x3000

/-- Rust `str::trim`: drop Unicode whitespace from both ends. -/
def rustTrim (l : List Char) : List Char :=
  ((l.dropWhile isRustWhitespace).reverse.dropWhile isRustWhitespace).reverse

/-- The predicate of the token parser `take_while(|c| c != ',' && c != '\n')`. -/
def isPathChar (c : Char) : Bool :=
  c ≠ ',' && c ≠ '\n'

/-- `nom::bytes::complete::tag(t)`: match the literal `t` at the start of the
input and return the remainder (we drop the matched fragment itself, which the
source discards). -/
def tag : List Char → List Char → Option (List Char)
  | [], input => some input
  | _ :: _, [] => none
  | t :: ts, c :: cs => if c = t then tag ts cs else none

/-- `nom::character::complete::multispace1`: one or more
space/tab/CR/LF characters, greedily. -/
def multispace1 (input : List Char) : Option (List Char) :=
  match input with
  | [] => none
  | c :: cs => if isMultispace c then some (cs.dropWhile isMultispace) else none

/-- The separator `delimited(multispace0, tag(","), multispace0)` of
`path_list`: optional multispace, a comma, optional multispace. -/
def comma_sep (input : List Char) : Option (List Char) :=
  match input.dropWhile isMultispace with
  | [] => none
  | c :: rest => if c = ',' then some (rest.dropWhile isMultispace) else none

/-- The loop of `nom::multi::separated_list1(comma_sep, take_while(isPathChar))`
after the first element has been read: repeatedly parse a separator and then
a (possibly empty) token.  `nom`'s loop returns the accumulated list as soon
as the separator fails, and errors out if the separator consumed no input
(the infinite-loop guard).  The element `take_while` never fails, so its
failure branch does not appear.  Structural recursion on a fuel argument
stands in for `nom`'s unbounded loop; `separated_paths` supplies enough fuel
(each iteration consumes at least the comma), so the `0` case is unreachable. -/
def separated_paths_loop : Nat → List Char → List (List Char) →
    Option (List Char × List (List Char))
  | 0, _, _ => none
  | fuel + 1, i, acc =>
    match comma_sep i with
    | none => some (i, acc)
    | some i1 =>
      if i1.length = i.length then none
      else
        separated_paths_loop fuel (i1.dropWhile isPathChar)
          (acc ++ [i1.takeWhile isPathChar])

/-- `separated_list1(delimited(multispace0, tag(","), multispace0),
take_while(|c| c != ',' && c != '\n'))`: the first element is read
unconditionally (`take_while` always succeeds, possibly with an empty
token), then the loop runs. -/
def separated_paths (input : List Char) : Option (List Char × List (List Char)) :=
  separated_paths_loop (input.length + 1) (input.dropWhile isPathChar)
    [input.takeWhile isPathChar]

/-- Rust `impl FromStr for PathBuf`: infallible (`Err = Infallible`):
a `PathBuf` is modelled as its textual content. -/
def pathbuf_from_str (s : List Char) : Option (List Char) := some s

/-- `paths.iter().map(|p| p.trim().parse().unwrap()).collect()`:
trim each token and convert it to a `PathBuf`.  The `none` outcome models
the `unwrap` panicking, which happens iff some conversion fails. -/
def convert_tokens : List (List Char) → Option (List (List Char))
  | [] => some []
  | t :: ts =>
    match pathbuf_from_str (rustTrim t), convert_tokens ts with
    | some p, some ps => some (p :: ps)
    | _, _ => none

/-- `fn path_list(input: &str) -> IResult<&str, Vec<PathBuf>, ()>`. -/
def path_list (input : List Char) : Option (List Char × List (List Char)) :=
  match separated_paths input with
  | none => none
  | some (tail, toks) =>
    match convert_tokens toks with
    | some paths => some (tail, paths)
    | none => none

/-- `enum ConfigLine { Include(Vec<PathBuf>), Exclude(Vec<PathBuf>) }`. -/
inductive ConfigLine where
  | Include : List (List Char) → ConfigLine
  | Exclude : List (List Char) → ConfigLine
deriving DecidableEq, Repr

/-- The path list carried by a directive, of either variant. -/
def ConfigLine.paths : ConfigLine → List (List Char)
  | .Include ps => ps
  | .Exclude ps => ps

/-- `struct Config { includes: Vec<PathBuf>, excludes: Vec<PathBuf> }`. -/
structure Config where
  includes : List (List Char) := []
  excludes : List (List Char) := []

/-- The literal `"include"`. -/
def include_kw : List Char := ['i', 'n', 'c', 'l', 'u', 'd', 'e']

/-- The literal `"exclude"`. -/
def exclude_kw : List Char := ['e', 'x', 'c', 'l', 'u', 'd', 'e']

/-- `fn include_line`: `tuple((tag("include"), multispace1, path_list))`,
then wrap the paths in `ConfigLine::Include`. -/
def include_line (input : List Char) : Option (List Char × ConfigLine) :=
  match tag include_kw input with
  | none => none
  | some i1 =>
    match multispace1 i1 with
    | none => none
    | some i2 =>
      match path_list i2 with
      | none => none
      | some (tail, paths) => some (tail, ConfigLine.Include paths)

/-- `fn exclude_line`: `tuple((tag("exclude"), multispace1, path_list))`,
then wrap the paths in `ConfigLine::Exclude`. -/
def exclude_line (input : List Char) : Option (List Char × ConfigLine) :=
  match tag exclude_kw input with
  | none => none
  | some i1 =>
    match multispace1 i1 with
    | none => none
    | some i2 =>
      match path_list i2 with
      | none => none
      | some (tail, paths) => some (tail, ConfigLine.Exclude paths)

/-- `fn parse_config_line`: `alt((include_line, exclude_line))` —
try `include_line`; on error, try `exclude_line`. -/
def parse_config_line (input : List Char) : Option (List Char × ConfigLine) :=
  match include_line input with
  | some r => some r
  | none => exclude_line input

/-- Modelled from the spec: the Line Dispatcher with the two alternatives
tried in the opposite order (`exclude_line` first), for the
order-insensitivity claim. -/
def parse_config_line_swapped (input : List Char) : Option (List Char × ConfigLine) :=
  match exclude_line input with
  | some r => some r
  | none => include_line input

/-- A space or a tab: the whitespace the spec allows to surround a comma. -/
def isSpaceTab (c : Char) : Bool := c = ' ' || c = '\t'

/-- Everything except a line feed. -/
def isNotNewline (c : Char) : Bool := c ≠ '\n'

/-- Joining a first path with later paths by commas, each comma surrounded by
the whitespace runs recorded next to its path:
`glue p ((a, b, q) :: rest) = p ++ a ++ "," ++ b ++ glue q rest`. -/
def glue : List Char → List (List Char × List Char × List Char) → List Char
  | p, [] => p
  | p, (a, b, q) :: rest => p ++ a ++ ',' :: (b ++ glue q rest)

/-- The side condition of the joined-path-list claim: every whitespace run is
made of spaces and tabs, and every later path is non-empty and free of commas
and newlines. -/
abbrev GoodRest (rest : List (List Char × List Char × List Char)) : Prop :=
  ∀ e ∈ rest, (∀ c ∈ e.1, isSpaceTab c = true) ∧ (∀ c ∈ e.2.1, isSpaceTab c = true) ∧
    e.2.2 ≠ [] ∧ ',' ∉ e.2.2 ∧ '\n' ∉ e.2.2

end Overwatch

namespace Overwatch

/-! ### Generic list facts used throughout -/

theorem takeWhile_append_of_all {P : Char → Bool} {x y : List Char}
    (h : ∀ c ∈ x, P c = true) : (x ++ y).takeWhile P = x ++ y.takeWhile P := by
  induction x with
  | nil => rfl
  | cons c cs ih =>
    have hc : P c = true := h c (List.mem_cons_self c cs)
    simp only [List.cons_append, List.takeWhile_cons_of_pos hc, List.cons.injEq, true_and]
    exact ih (fun d hd => h d (List.mem_cons_of_mem c hd))

theorem dropWhile_append_of_all {P : Char → Bool} {x y : List Char}
    (h : ∀ c ∈ x, P c = true) : (x ++ y).dropWhile P = y.dropWhile P := by
  induction x with
  | nil => rfl
  | cons c cs ih =>
    have hc : P c = true := h c (List.mem_cons_self c cs)
    simp only [List.cons_append, List.dropWhile_cons_of_pos hc]
    exact ih (fun d hd => h d (List.mem_cons_of_mem c hd))

theorem takeWhile_eq_self_of_all {P : Char → Bool} {x : List Char}
    (h : ∀ c ∈ x, P c = true) : x.takeWhile P = x := by
  have := takeWhile_append_of_all (y := []) h
  simpa using this

theorem dropWhile_eq_nil_of_all {P : Char → Bool} {x : List Char}
    (h : ∀ c ∈ x, P c = true) : x.dropWhile P = [] := by
  have := dropWhile_append_of_all (y := []) h
  simpa using this

theorem all_of_dropWhile_eq_nil {P : Char → Bool} {x : List Char}
    (h : x.dropWhile P = []) : ∀ c ∈ x, P c = true := by
  induction x with
  | nil => intro c hc; cases hc
  | cons a as ih =>
    by_cases ha : P a = true
    · rw [List.dropWhile_cons_of_pos ha] at h
      intro c hc
      rcases List.mem_cons.mp hc with rfl | hc
      · exact ha
      · exact ih h c hc
    · rw [List.dropWhile_cons_of_neg ha] at h
      cases h

theorem dropWhile_dropWhile_of_imp {P Q : Char → Bool} (himp : ∀ c, P c = true → Q c = true)
    (l : List Char) : (l.dropWhile P).dropWhile Q = l.dropWhile Q := by
  induction l with
  | nil => rfl
  | cons a as ih =>
    by_cases ha : P a = true
    · rw [List.dropWhile_cons_of_pos ha, List.dropWhile_cons_of_pos (himp a ha), ih]
    · rw [List.dropWhile_cons_of_neg ha]

theorem dropWhile_append_of_ne_nil {P : Char → Bool} {x : List Char} (y : List Char)
    (h : x.dropWhile P ≠ []) : (x ++ y).dropWhile P = x.dropWhile P ++ y := by
  induction x with
  | nil => exact absurd rfl h
  | cons a as ih =>
    by_cases ha : P a = true
    · rw [List.dropWhile_cons_of_pos ha] at h
      simp only [List.cons_append, List.dropWhile_cons_of_pos ha,
        List.dropWhile_cons_of_pos ha]
      exact ih h
    · simp only [List.cons_append, List.dropWhile_cons_of_neg ha,
        List.dropWhile_cons_of_neg ha, List.cons_append]

theorem mem_of_mem_dropWhile {P : Char → Bool} {c : Char} {l : List Char}
    (h : c ∈ l.dropWhile P) : c ∈ l :=
  List.Sublist.mem h (List.dropWhile_sublist P)

theorem mem_takeWhile_sat {P : Char → Bool} {c : Char} {l : List Char}
    (h : c ∈ l.takeWhile P) : P c = true := by
  induction l with
  | nil => cases h
  | cons a as ih =>
    by_cases ha : P a = true
    · rw [List.takeWhile_cons_of_pos ha] at h
      rcases List.mem_cons.mp h with rfl | h
      · exact ha
      · exact ih h
    · rw [List.takeWhile_cons_of_neg ha] at h
      cases h

theorem takeWhile_congr_mem {P Q : Char → Bool} {l : List Char}
    (h : ∀ c ∈ l, P c = Q c) : l.takeWhile P = l.takeWhile Q := by
  induction l with
  | nil => rfl
  | cons a as ih =>
    have ha := h a (List.mem_cons_self a as)
    have ih' := ih (fun c hc => h c (List.mem_cons_of_mem a hc))
    by_cases hp : P a = true
    · rw [List.takeWhile_cons_of_pos hp, List.takeWhile_cons_of_pos (ha ▸ hp), ih']
    · rw [List.takeWhile_cons_of_neg hp, List.takeWhile_cons_of_neg (ha ▸ hp)]

theorem dropWhile_congr_mem {P Q : Char → Bool} {l : List Char}
    (h : ∀ c ∈ l, P c = Q c) : l.dropWhile P = l.dropWhile Q := by
  induction l with
  | nil => rfl
  | cons a as ih =>
    have ha := h a (List.mem_cons_self a as)
    have ih' := ih (fun c hc => h c (List.mem_cons_of_mem a hc))
    by_cases hp : P a = true
    · rw [List.dropWhile_cons_of_pos hp, List.dropWhile_cons_of_pos (ha ▸ hp), ih']
    · rw [List.dropWhile_cons_of_neg hp, List.dropWhile_cons_of_neg (ha ▸ hp)]

theorem dropWhile_suffix (P : Char → Bool) (l : List Char) :
    ∃ pre, l = pre ++ l.dropWhile P :=
  ⟨l.takeWhile P, (List.takeWhile_append_dropWhile P l).symm⟩

/-! ### Character-class facts -/

theorem spaceTab_isMultispace {c : Char} (h : isSpaceTab c = true) : isMultispace c = true := by
  simp only [isSpaceTab, Bool.or_eq_true, decide_eq_true_eq] at h
  rcases h with h | h <;> subst h <;> decide

theorem multispace_isRustWhitespace {c : Char} (h : isMultispace c = true) :
    isRustWhitespace c = true := by
  simp only [isMultispace, Bool.or_eq_true, decide_eq_true_eq] at h
  rcases h with ((h | h) | h) | h <;> subst h <;> decide

theorem spaceTab_isRustWhitespace {c : Char} (h : isSpaceTab c = true) :
    isRustWhitespace c = true :=
  multispace_isRustWhitespace (spaceTab_isMultispace h)

theorem spaceTab_isPathChar {c : Char} (h : isSpaceTab c = true) : isPathChar c = true := by
  simp only [isSpaceTab, Bool.or_eq_true, decide_eq_true_eq] at h
  rcases h with h | h <;> subst h <;> decide

theorem isPathChar_of_ne {c : Char} (h1 : c ≠ ',') (h2 : c ≠ '\n') : isPathChar c = true := by
  simp [isPathChar, h1, h2]

theorem ne_of_isPathChar {c : Char} (h : isPathChar c = true) : c ≠ ',' ∧ c ≠ '\n' := by
  simpa [isPathChar] using h

/-! ### Facts about `rustTrim` -/

theorem rustTrim_nil : rustTrim [] = [] := rfl

theorem rustTrim_eq_nil_of_all_ws {l : List Char}
    (h : ∀ c ∈ l, isRustWhitespace c = true) : rustTrim l = [] := by
  unfold rustTrim
  rw [dropWhile_eq_nil_of_all h]
  rfl

theorem rustTrim_append_ws {x w : List Char}
    (hw : ∀ c ∈ w, isRustWhitespace c = true) : rustTrim (x ++ w) = rustTrim x := by
  by_cases hx : x.dropWhile isRustWhitespace = []
  · have hxall := all_of_dropWhile_eq_nil hx
    have h1 : rustTrim x = [] := rustTrim_eq_nil_of_all_ws hxall
    have h2 : rustTrim (x ++ w) = [] := by
      refine rustTrim_eq_nil_of_all_ws ?_
      intro c hc
      rcases List.mem_append.mp hc with hc | hc
      · exact hxall c hc
      · exact hw c hc
    rw [h1, h2]
  · unfold rustTrim
    rw [dropWhile_append_of_ne_nil w hx, List.reverse_append,
      dropWhile_append_of_all (fun c hc => hw c (List.mem_reverse.mp hc))]

theorem rustTrim_dropWhile_multispace (l : List Char) :
    rustTrim (l.dropWhile isMultispace) = rustTrim l := by
  unfold rustTrim
  rw [dropWhile_dropWhile_of_imp (fun c => multispace_isRustWhitespace) l]

theorem mem_of_mem_rustTrim {c : Char} {l : List Char} (h : c ∈ rustTrim l) : c ∈ l := by
  unfold rustTrim at h
  rw [List.mem_reverse] at h
  have h1 := mem_of_mem_dropWhile h
  rw [List.mem_reverse] at h1
  exact mem_of_mem_dropWhile h1

end Overwatch

namespace Overwatch

/-! ### Facts about the separator, the `separated_list1` loop and `path_list` -/

theorem comma_sep_some {i i1 : List Char} (h : comma_sep i = some i1) :
    ∃ rest, i.dropWhile isMultispace = ',' :: rest ∧ i1 = rest.dropWhile isMultispace := by
  unfold comma_sep at h
  split at h
  · simp at h
  · rename_i c rest heq
    by_cases hc : c = ','
    · rw [if_pos hc] at h
      refine ⟨rest, ?_, (Option.some.inj h).symm⟩
      rw [heq, hc]
    · rw [if_neg hc] at h
      simp at h

theorem comma_sep_length {i i1 : List Char} (h : comma_sep i = some i1) :
    i1.length < i.length := by
  obtain ⟨rest, hd, hi1⟩ := comma_sep_some h
  have h1 : i1.length ≤ rest.length := by
    rw [hi1]
    exact (List.dropWhile_sublist _).length_le
  have h2 : rest.length < (i.dropWhile isMultispace).length := by
    rw [hd]
    simp
  have h3 : (i.dropWhile isMultispace).length ≤ i.length :=
    (List.dropWhile_sublist _).length_le
  omega

theorem comma_sep_suffix {i i1 : List Char} (h : comma_sep i = some i1) :
    ∃ pre, i = pre ++ i1 := by
  obtain ⟨rest, hd, hi1⟩ := comma_sep_some h
  obtain ⟨p1, hp1⟩ := dropWhile_suffix isMultispace i
  obtain ⟨p2, hp2⟩ := dropWhile_suffix isMultispace rest
  rw [hd] at hp1
  rw [← hi1] at hp2
  refine ⟨p1 ++ ',' :: p2, ?_⟩
  rw [hp1, hp2]
  simp [List.append_assoc]

theorem comma_sep_eq_none_of_no_comma {i : List Char} (h : ',' ∉ i) : comma_sep i = none := by
  unfold comma_sep
  split
  · rfl
  · rename_i c rest hd
    have hc : c ∈ i := mem_of_mem_dropWhile (hd ▸ List.mem_cons_self c rest)
    have hcc : c ≠ ',' := fun hcc => h (hcc ▸ hc)
    rw [if_neg hcc]

theorem comma_sep_nil : comma_sep [] = none := rfl

theorem loop_stop {fuel : Nat} {i : List Char} {acc : List (List Char)}
    (hf : 0 < fuel) (h : comma_sep i = none) :
    separated_paths_loop fuel i acc = some (i, acc) := by
  cases fuel with
  | zero => omega
  | succ f => simp [separated_paths_loop, h]

theorem loop_tail_suffix : ∀ (fuel : Nat) (i : List Char) (acc : List (List Char))
    {t : List Char} {toks : List (List Char)},
    separated_paths_loop fuel i acc = some (t, toks) → ∃ pre, i = pre ++ t
  | 0, i, acc, t, toks, h => by simp [separated_paths_loop] at h
  | fuel + 1, i, acc, t, toks, h => by
    simp only [separated_paths_loop] at h
    split at h
    · simp only [Option.some.injEq, Prod.mk.injEq] at h
      exact ⟨[], by rw [h.1]; rfl⟩
    · rename_i i1 hs
      split at h
      · simp at h
      · obtain ⟨p2, hp2⟩ := loop_tail_suffix fuel _ _ h
        obtain ⟨p1, hp1⟩ := comma_sep_suffix hs
        obtain ⟨p0, hp0⟩ := dropWhile_suffix isPathChar i1
        refine ⟨p1 ++ p0 ++ p2, ?_⟩
        rw [hp1]
        conv_lhs => rw [hp0]
        rw [hp2]
        simp [List.append_assoc]

theorem loop_acc_extends : ∀ (fuel : Nat) (i : List Char) (acc : List (List Char))
    {t : List Char} {toks : List (List Char)},
    separated_paths_loop fuel i acc = some (t, toks) → ∃ ext, toks = acc ++ ext
  | 0, i, acc, t, toks, h => by simp [separated_paths_loop] at h
  | fuel + 1, i, acc, t, toks, h => by
    simp only [separated_paths_loop] at h
    split at h
    · simp only [Option.some.injEq, Prod.mk.injEq] at h
      exact ⟨[], by rw [← h.2]; simp⟩
    · rename_i i1 hs
      split at h
      · simp at h
      · obtain ⟨ext, hext⟩ := loop_acc_extends fuel _ _ h
        exact ⟨[i1.takeWhile isPathChar] ++ ext, by rw [hext]; simp⟩

theorem loop_tokens_pathChar : ∀ (fuel : Nat) (i : List Char) (acc : List (List Char))
    {t : List Char} {toks : List (List Char)},
    (∀ tok ∈ acc, ∀ c ∈ tok, isPathChar c = true) →
    separated_paths_loop fuel i acc = some (t, toks) →
    ∀ tok ∈ toks, ∀ c ∈ tok, isPathChar c = true
  | 0, i, acc, t, toks, hacc, h => by simp [separated_paths_loop] at h
  | fuel + 1, i, acc, t, toks, hacc, h => by
    simp only [separated_paths_loop] at h
    split at h
    · simp only [Option.some.injEq, Prod.mk.injEq] at h
      rw [← h.2]
      exact hacc
    · rename_i i1 hs
      split at h
      · simp at h
      · refine loop_tokens_pathChar fuel _ _ ?_ h
        intro tok htok c hc
        rcases List.mem_append.mp htok with htok | htok
        · exact hacc tok htok c hc
        · rw [List.mem_singleton] at htok
          subst htok
          exact mem_takeWhile_sat hc

theorem convert_tokens_eq : ∀ ts : List (List Char),
    convert_tokens ts = some (ts.map rustTrim)
  | [] => rfl
  | t :: ts => by
    simp only [convert_tokens, pathbuf_from_str, convert_tokens_eq ts, List.map_cons]

theorem path_list_eq_map (input : List Char) :
    path_list input = (separated_paths input).map (fun r => (r.1, r.2.map rustTrim)) := by
  unfold path_list
  cases h : separated_paths input with
  | none => rfl
  | some r =>
    obtain ⟨tail, toks⟩ := r
    simp [convert_tokens_eq]

theorem separated_paths_suffix {i t : List Char} {toks : List (List Char)}
    (h : separated_paths i = some (t, toks)) : ∃ pre, i = pre ++ t := by
  unfold separated_paths at h
  obtain ⟨p, hp⟩ := loop_tail_suffix _ _ _ h
  obtain ⟨q, hq⟩ := dropWhile_suffix isPathChar i
  refine ⟨q ++ p, ?_⟩
  conv_lhs => rw [hq]
  rw [hp]
  simp [List.append_assoc]

theorem separated_paths_nonempty {i t : List Char} {toks : List (List Char)}
    (h : separated_paths i = some (t, toks)) : toks ≠ [] := by
  unfold separated_paths at h
  obtain ⟨ext, hext⟩ := loop_acc_extends _ _ _ h
  rw [hext]
  simp

theorem separated_paths_tokens {i t : List Char} {toks : List (List Char)}
    (h : separated_paths i = some (t, toks)) :
    ∀ tok ∈ toks, ∀ c ∈ tok, isPathChar c = true := by
  unfold separated_paths at h
  refine loop_tokens_pathChar _ _ _ ?_ h
  intro tok htok c hc
  rw [List.mem_singleton] at htok
  subst htok
  exact mem_takeWhile_sat hc

theorem path_list_suffix {i t : List Char} {ps : List (List Char)}
    (h : path_list i = some (t, ps)) : ∃ pre, i = pre ++ t := by
  rw [path_list_eq_map] at h
  cases hs : separated_paths i with
  | none => rw [hs] at h; simp at h
  | some r =>
    obtain ⟨tail, toks⟩ := r
    rw [hs] at h
    simp only [Option.map_some'] at h
    have ht : tail = t := congrArg Prod.fst (Option.some.inj h)
    rw [← ht]
    exact separated_paths_suffix hs

theorem path_list_nonempty {i t : List Char} {ps : List (List Char)}
    (h : path_list i = some (t, ps)) : ps ≠ [] := by
  rw [path_list_eq_map] at h
  cases hs : separated_paths i with
  | none => rw [hs] at h; simp at h
  | some r =>
    obtain ⟨tail, toks⟩ := r
    rw [hs] at h
    simp only [Option.map_some'] at h
    have hps : toks.map rustTrim = ps := congrArg Prod.snd (Option.some.inj h)
    rw [← hps]
    have hne := separated_paths_nonempty hs
    simpa using hne

/-! ### Facts about `tag`, `multispace1` and the line parsers -/

theorem tag_append_self : ∀ (t y : List Char), tag t (t ++ y) = some y
  | [], y => rfl
  | c :: cs, y => by simp [tag, tag_append_self cs y]

theorem tag_head_ne {k c : Char} {ks i : List Char} (h : c ≠ k) :
    tag (k :: ks) (c :: i) = none := by
  simp [tag, h]

theorem tag_cons_head {k : Char} {ks i r : List Char} (h : tag (k :: ks) i = some r) :
    ∃ rest, i = k :: rest := by
  cases i with
  | nil => simp [tag] at h
  | cons c cs =>
    simp only [tag] at h
    by_cases hc : c = k
    · exact ⟨cs, by rw [hc]⟩
    · rw [if_neg hc] at h
      simp at h

theorem tag_suffix : ∀ (t i r : List Char), tag t i = some r → ∃ pre, i = pre ++ r
  | [], i, r, h => by
    have hir : i = r := Option.some.inj (by simpa [tag] using h)
    exact ⟨[], by simp [hir]⟩
  | t :: ts, [], r, h => by simp [tag] at h
  | t :: ts, c :: cs, r, h => by
    simp only [tag] at h
    by_cases hc : c = t
    · rw [if_pos hc] at h
      obtain ⟨pre, hpre⟩ := tag_suffix ts cs r h
      exact ⟨c :: pre, by simp [hpre]⟩
    · rw [if_neg hc] at h
      simp at h

theorem multispace1_suffix {i r : List Char} (h : multispace1 i = some r) :
    ∃ pre, i = pre ++ r := by
  cases i with
  | nil => simp [multispace1] at h
  | cons c cs =>
    simp only [multispace1] at h
    by_cases hc : isMultispace c = true
    · rw [if_pos hc] at h
      obtain ⟨p, hp⟩ := dropWhile_suffix isMultispace cs
      refine ⟨c :: p, ?_⟩
      conv_lhs => rw [hp]
      rw [Option.some.inj h]
      simp
    · rw [if_neg hc] at h
      simp at h

theorem multispace1_none {l : List Char}
    (h : ∀ c cs, l = c :: cs → isMultispace c = false) : multispace1 l = none := by
  cases l with
  | nil => rfl
  | cons c cs =>
    have hc := h c cs rfl
    simp [multispace1, hc]

theorem include_line_some {input t : List Char} {d : ConfigLine}
    (h : include_line input = some (t, d)) :
    ∃ pre i2 paths, input = pre ++ i2 ∧ path_list i2 = some (t, paths) ∧
      d = ConfigLine.Include paths := by
  unfold include_line at h
  split at h
  · simp at h
  · rename_i i1 h1
    split at h
    · simp at h
    · rename_i i2 h2
      split at h
      · simp at h
      · rename_i tail paths h3
        have hinj := Option.some.inj h
        have ht : tail = t := congrArg Prod.fst hinj
        have hd : ConfigLine.Include paths = d := congrArg Prod.snd hinj
        obtain ⟨p1, hp1⟩ := tag_suffix include_kw input i1 h1
        obtain ⟨p2, hp2⟩ := multispace1_suffix h2
        refine ⟨p1 ++ p2, i2, paths, ?_, ht ▸ h3, hd.symm⟩
        rw [hp1, hp2]
        simp [List.append_assoc]

theorem exclude_line_some {input t : List Char} {d : ConfigLine}
    (h : exclude_line input = some (t, d)) :
    ∃ pre i2 paths, input = pre ++ i2 ∧ path_list i2 = some (t, paths) ∧
      d = ConfigLine.Exclude paths := by
  unfold exclude_line at h
  split at h
  · simp at h
  · rename_i i1 h1
    split at h
    · simp at h
    · rename_i i2 h2
      split at h
      · simp at h
      · rename_i tail paths h3
        have hinj := Option.some.inj h
        have ht : tail = t := congrArg Prod.fst hinj
        have hd : ConfigLine.Exclude paths = d := congrArg Prod.snd hinj
        obtain ⟨p1, hp1⟩ := tag_suffix exclude_kw input i1 h1
        obtain ⟨p2, hp2⟩ := multispace1_suffix h2
        refine ⟨p1 ++ p2, i2, paths, ?_, ht ▸ h3, hd.symm⟩
        rw [hp1, hp2]
        simp [List.append_assoc]

theorem parse_config_line_some {input t : List Char} {d : ConfigLine}
    (h : parse_config_line input = some (t, d)) :
    ∃ pre i2, input = pre ++ i2 ∧ path_list i2 = some (t, d.paths) := by
  unfold parse_config_line at h
  split at h
  · rename_i r hr
    have hrtd : r = (t, d) := Option.some.inj h
    subst hrtd
    obtain ⟨pre, i2, paths, hin, hpl, hd⟩ := include_line_some hr
    refine ⟨pre, i2, hin, ?_⟩
    rw [hd]
    exact hpl
  · obtain ⟨pre, i2, paths, hin, hpl, hd⟩ := exclude_line_some h
    refine ⟨pre, i2, hin, ?_⟩
    rw [hd]
    exact hpl

theorem include_line_head {input : List Char} {r : List Char × ConfigLine}
    (h : include_line input = some r) : ∃ rest, input = 'i' :: rest := by
  unfold include_line at h
  split at h
  · simp at h
  · rename_i i1 h1
    simp only [include_kw] at h1
    exact tag_cons_head h1

theorem exclude_line_head {input : List Char} {r : List Char × ConfigLine}
    (h : exclude_line input = some r) : ∃ rest, input = 'e' :: rest := by
  unfold exclude_line at h
  split at h
  · simp at h
  · rename_i i1 h1
    simp only [exclude_kw] at h1
    exact tag_cons_head h1

end Overwatch

namespace Overwatch

/-! ### Stepping the loop, and its behaviour on comma-joined inputs -/

theorem comma_sep_cons_comma (w : List Char) :
    comma_sep (',' :: w) = some (w.dropWhile isMultispace) := by
  unfold comma_sep
  rw [List.dropWhile_cons_of_neg (by decide)]
  simp

theorem loop_step {fuel : Nat} {i i1 : List Char} {acc : List (List Char)}
    (hs : comma_sep i = some i1) :
    separated_paths_loop (fuel + 1) i acc =
      separated_paths_loop fuel (i1.dropWhile isPathChar)
        (acc ++ [i1.takeWhile isPathChar]) := by
  have hne : ¬ (i1.length = i.length) := Nat.ne_of_lt (comma_sep_length hs)
  simp [separated_paths_loop, hs, hne]

theorem loop_comma_ws {w : List Char} (hw : ∀ c ∈ w, isMultispace c = true)
    {fuel : Nat} (hfuel : 1 < fuel) (acc : List (List Char)) :
    separated_paths_loop fuel (',' :: w) acc = some ([], acc ++ [[]]) := by
  obtain ⟨f, rfl⟩ : ∃ f, fuel = f + 1 := ⟨fuel - 1, by omega⟩
  rw [loop_step (comma_sep_cons_comma w), dropWhile_eq_nil_of_all hw]
  simp only [List.takeWhile_nil, List.dropWhile_nil]
  exact loop_stop (by omega) comma_sep_nil

theorem loop_glue : ∀ (rest : List (List Char × List Char × List Char))
    (q b : List Char) (acc : List (List Char)) (fuel : Nat),
    (',' :: (b ++ glue q rest)).length < fuel →
    (∀ c ∈ b, isSpaceTab c = true) → ',' ∉ q → '\n' ∉ q → GoodRest rest →
    ∃ toks, separated_paths_loop fuel (',' :: (b ++ glue q rest)) acc
        = some ([], acc ++ toks) ∧
      toks.map rustTrim = rustTrim q :: rest.map (fun e => rustTrim e.2.2)
  | [], q, b, acc, fuel, hfuel, hb, hqc, hqn, _ => by
    obtain ⟨f, rfl⟩ : ∃ f, fuel = f + 1 := by
      cases fuel with
      | zero => exact absurd hfuel (by simp)
      | succ f => exact ⟨f, rfl⟩
    simp only [glue] at hfuel ⊢
    have hq : ∀ c ∈ q, isPathChar c = true := fun c hc =>
      isPathChar_of_ne (fun h' => hqc (h' ▸ hc)) (fun h' => hqn (h' ▸ hc))
    have hbq : (b ++ q).dropWhile isMultispace = q.dropWhile isMultispace :=
      dropWhile_append_of_all (fun c hc => spaceTab_isMultispace (hb c hc))
    have hD : ∀ c ∈ q.dropWhile isMultispace, isPathChar c = true :=
      fun c hc => hq c (mem_of_mem_dropWhile hc)
    refine ⟨[q.dropWhile isMultispace], ?_, ?_⟩
    · rw [loop_step (comma_sep_cons_comma _), hbq, takeWhile_eq_self_of_all hD,
        dropWhile_eq_nil_of_all hD]
      have hf : 0 < f := by
        simp only [List.length_cons, List.length_append] at hfuel
        omega
      rw [loop_stop hf comma_sep_nil]
    · simp [rustTrim_dropWhile_multispace]
  | (a2, b2, r) :: rest', q, b, acc, fuel, hfuel, hb, hqc, hqn, hrest => by
    obtain ⟨f, rfl⟩ : ∃ f, fuel = f + 1 := by
      cases fuel with
      | zero => exact absurd hfuel (by simp)
      | succ f => exact ⟨f, rfl⟩
    obtain ⟨ha2, hb2, -, hrc, hrn⟩ := hrest (a2, b2, r) (List.mem_cons_self _ _)
    have hrest' : GoodRest rest' := fun e he => hrest e (List.mem_cons_of_mem _ he)
    have hq : ∀ c ∈ q, isPathChar c = true := fun c hc =>
      isPathChar_of_ne (fun h' => hqc (h' ▸ hc)) (fun h' => hqn (h' ▸ hc))
    have hbms : ∀ c ∈ b, isMultispace c = true := fun c hc => spaceTab_isMultispace (hb c hc)
    have ha2ms : ∀ c ∈ a2, isMultispace c = true :=
      fun c hc => spaceTab_isMultispace (ha2 c hc)
    have hglue : glue q ((a2, b2, r) :: rest') = (q ++ a2) ++ ',' :: (b2 ++ glue r rest') := by
      simp [glue]
    have hflen : (',' :: (b2 ++ glue r rest')).length < f := by
      rw [hglue] at hfuel
      simp only [List.length_cons, List.length_append] at hfuel ⊢
      omega
    by_cases hD : q.dropWhile isMultispace = []
    · have hqms := all_of_dropWhile_eq_nil hD
      have hqa2 : ∀ c ∈ q ++ a2, isMultispace c = true := by
        intro c hc
        rcases List.mem_append.mp hc with hc | hc
        · exact hqms c hc
        · exact ha2ms c hc
      have hI1 : (b ++ glue q ((a2, b2, r) :: rest')).dropWhile isMultispace =
          ',' :: (b2 ++ glue r rest') := by
        rw [hglue, dropWhile_append_of_all hbms, dropWhile_append_of_all hqa2,
          List.dropWhile_cons_of_neg (by decide)]
      obtain ⟨toks', hloop', hmap'⟩ :=
        loop_glue rest' r b2 (acc ++ [[]]) f hflen hb2 hrc hrn hrest'
      refine ⟨[] :: toks', ?_, ?_⟩
      · rw [loop_step (comma_sep_cons_comma _), hI1,
          List.takeWhile_cons_of_neg (by decide), List.dropWhile_cons_of_neg (by decide),
          hloop']
        simp
      · have hq0 : rustTrim q = [] :=
          rustTrim_eq_nil_of_all_ws (fun c hc => multispace_isRustWhitespace (hqms c hc))
        simp [hmap', hq0, rustTrim_nil]
    · have hDq : ∀ c ∈ q.dropWhile isMultispace, isPathChar c = true :=
        fun c hc => hq c (mem_of_mem_dropWhile hc)
      have ha2pc : ∀ c ∈ a2, isPathChar c = true :=
        fun c hc => spaceTab_isPathChar (ha2 c hc)
      have hI1 : (b ++ glue q ((a2, b2, r) :: rest')).dropWhile isMultispace =
          q.dropWhile isMultispace ++ (a2 ++ ',' :: (b2 ++ glue r rest')) := by
        rw [hglue, dropWhile_append_of_all hbms, List.append_assoc,
          dropWhile_append_of_ne_nil _ hD]
      have hTW : (q.dropWhile isMultispace ++
          (a2 ++ ',' :: (b2 ++ glue r rest'))).takeWhile isPathChar =
          q.dropWhile isMultispace ++ a2 := by
        rw [takeWhile_append_of_all hDq, takeWhile_append_of_all ha2pc,
          List.takeWhile_cons_of_neg (by decide)]
        simp
      have hDW : (q.dropWhile isMultispace ++
          (a2 ++ ',' :: (b2 ++ glue r rest'))).dropWhile isPathChar =
          ',' :: (b2 ++ glue r rest') := by
        rw [dropWhile_append_of_all hDq, dropWhile_append_of_all ha2pc,
          List.dropWhile_cons_of_neg (by decide)]
      obtain ⟨toks', hloop', hmap'⟩ := loop_glue rest' r b2
        (acc ++ [q.dropWhile isMultispace ++ a2]) f hflen hb2 hrc hrn hrest'
      refine ⟨(q.dropWhile isMultispace ++ a2) :: toks', ?_, ?_⟩
      · rw [loop_step (comma_sep_cons_comma _), hI1, hTW, hDW, hloop']
        simp
      · have htr : rustTrim (q.dropWhile isMultispace ++ a2) = rustTrim q := by
          rw [rustTrim_append_ws (fun c hc => spaceTab_isRustWhitespace (ha2 c hc)),
            rustTrim_dropWhile_multispace]
        simp [hmap', htr]

end Overwatch

namespace Overwatch

/-! ### The claims -/

/-- C1: for every non-empty sequence of path strings, each non-empty and free
of commas and newlines, parsing the comma-join of the sequence (with arbitrary
runs of spaces/tabs around each comma) via `path_list` succeeds and returns
exactly the trimmed paths, in order, with an empty remainder. -/
theorem c1_join_comma_separated (p : List Char)
    (rest : List (List Char × List Char × List Char))
    (_hp : p ≠ []) (hpc : ',' ∉ p) (hpn : '\n' ∉ p) (hrest : GoodRest rest) :
    path_list (glue p rest) =
      some ([], rustTrim p :: rest.map (fun e => rustTrim e.2.2)) := by
  have hppc : ∀ c ∈ p, isPathChar c = true := fun c hc =>
    isPathChar_of_ne (fun h' => hpc (h' ▸ hc)) (fun h' => hpn (h' ▸ hc))
  rw [path_list_eq_map]
  cases rest with
  | nil =>
    have hsp : separated_paths p = some ([], [p]) := by
      unfold separated_paths
      rw [takeWhile_eq_self_of_all hppc, dropWhile_eq_nil_of_all hppc,
        loop_stop (by omega) comma_sep_nil]
    simp only [glue, hsp, Option.map_some']
    simp
  | cons e rest' =>
    obtain ⟨a, b, q⟩ := e
    obtain ⟨ha, hb, -, hqc, hqn⟩ := hrest (a, b, q) (List.mem_cons_self _ _)
    have hrest' : GoodRest rest' := fun e' he' => hrest e' (List.mem_cons_of_mem _ he')
    have hapc : ∀ c ∈ a, isPathChar c = true := fun c hc => spaceTab_isPathChar (ha c hc)
    have hpa : ∀ c ∈ p ++ a, isPathChar c = true := by
      intro c hc
      rcases List.mem_append.mp hc with hc | hc
      · exact hppc c hc
      · exact hapc c hc
    have hglue : glue p ((a, b, q) :: rest') = (p ++ a) ++ ',' :: (b ++ glue q rest') := by
      simp [glue]
    have hTW : (glue p ((a, b, q) :: rest')).takeWhile isPathChar = p ++ a := by
      rw [hglue, takeWhile_append_of_all hpa, List.takeWhile_cons_of_neg (by decide)]
      simp
    have hDW : (glue p ((a, b, q) :: rest')).dropWhile isPathChar =
        ',' :: (b ++ glue q rest') := by
      rw [hglue, dropWhile_append_of_all hpa, List.dropWhile_cons_of_neg (by decide)]
    have hflen : (',' :: (b ++ glue q rest')).length <
        (glue p ((a, b, q) :: rest')).length + 1 := by
      rw [hglue]
      simp only [List.length_cons, List.length_append]
      omega
    obtain ⟨toks, hloop, hmap⟩ := loop_glue rest' q b [p ++ a]
      ((glue p ((a, b, q) :: rest')).length + 1) hflen hb hqc hqn hrest'
    have hsp : separated_paths (glue p ((a, b, q) :: rest')) =
        some ([], [p ++ a] ++ toks) := by
      unfold separated_paths
      rw [hTW, hDW, hloop]
    rw [hsp]
    have htr : rustTrim (p ++ a) = rustTrim p :=
      rustTrim_append_ws (fun c hc => spaceTab_isRustWhitespace (ha c hc))
    simp [hmap, htr]

/-- C1 witness: `path_list "/a ,\t/b"` returns exactly the two trimmed paths. -/
theorem c1_join_comma_separated_witness :
    ((['/', 'a'] : List Char) ≠ []) ∧ (',' ∉ (['/', 'a'] : List Char)) ∧
    ('\n' ∉ (['/', 'a'] : List Char)) ∧ GoodRest [([' '], ['\t'], ['/', 'b'])] ∧
    path_list (glue ['/', 'a'] [([' '], ['\t'], ['/', 'b'])]) =
      some ([], rustTrim ['/', 'a'] ::
        [([' '], ['\t'], ['/', 'b'])].map (fun e => rustTrim e.2.2)) := by
  refine ⟨by decide, by decide, by decide, by decide, ?_⟩
  exact c1_join_comma_separated ['/', 'a'] [([' '], ['\t'], ['/', 'b'])]
    (by decide) (by decide) (by decide) (by decide)

/-- C2 counterexample: parsing the empty string with `path_list` does NOT
fail — `take_while` accepts a zero-length first token, so `separated_list1`
succeeds. -/
theorem c2_empty_input_counterexample : path_list ([] : List Char) ≠ none := by decide

/-- C2 amended: parsing the empty string with `path_list` succeeds, returning
an empty remainder and a single empty path (the zero-length token, trimmed). -/
theorem c2_empty_input_amended : path_list ([] : List Char) = some ([], [[]]) := by decide

/-- C3 counterexample: `path_list "/a,"` does NOT fail — it succeeds with an
extra empty path after the trailing comma. -/
theorem c3_trailing_comma_counterexample :
    path_list ['/', 'a', ','] = some ([], [['/', 'a'], []]) := by decide

theorem takeWhile_append_cons_neg {P : Char → Bool} {c : Char} {x z : List Char}
    (hc : ¬ P c = true) : (x ++ c :: z).takeWhile P = x.takeWhile P := by
  induction x with
  | nil =>
    rw [List.nil_append, List.takeWhile_cons_of_neg hc]
    rfl
  | cons a as ih =>
    by_cases ha : P a = true
    · rw [List.cons_append, List.takeWhile_cons_of_pos ha, List.takeWhile_cons_of_pos ha, ih]
    · rw [List.cons_append, List.takeWhile_cons_of_neg ha, List.takeWhile_cons_of_neg ha]

theorem dropWhile_append_cons_neg {P : Char → Bool} {c : Char} {x z : List Char}
    (hc : ¬ P c = true) : (x ++ c :: z).dropWhile P = x.dropWhile P ++ c :: z := by
  induction x with
  | nil =>
    rw [List.nil_append, List.dropWhile_cons_of_neg hc]
    rfl
  | cons a as ih =>
    by_cases ha : P a = true
    · rw [List.cons_append, List.dropWhile_cons_of_pos ha, List.dropWhile_cons_of_pos ha, ih]
    · rw [List.cons_append, List.dropWhile_cons_of_neg ha, List.dropWhile_cons_of_neg ha,
        List.cons_append]

theorem comma_sep_append_comma {i i1 : List Char} (w : List Char)
    (h : comma_sep i = some i1) : comma_sep (i ++ ',' :: w) = some (i1 ++ ',' :: w) := by
  obtain ⟨rest, hd, hi1⟩ := comma_sep_some h
  have hdne : i.dropWhile isMultispace ≠ [] := by
    rw [hd]
    simp
  have h2 : (i ++ ',' :: w).dropWhile isMultispace = ',' :: (rest ++ ',' :: w) := by
    rw [dropWhile_append_of_ne_nil _ hdne, hd]
    simp
  have h3 : (rest ++ ',' :: w).dropWhile isMultispace = i1 ++ ',' :: w := by
    rw [dropWhile_append_cons_neg (by decide), hi1]
  unfold comma_sep
  rw [h2]
  simp [h3]

theorem loop_trailing_comma : ∀ (fuel : Nat) (i : List Char) (acc : List (List Char))
    {w : List Char} {toks : List (List Char)},
    (∀ c ∈ w, isMultispace c = true) →
    separated_paths_loop fuel i acc = some ([], toks) →
    ∀ fuel' : Nat, (i ++ ',' :: w).length < fuel' →
    separated_paths_loop fuel' (i ++ ',' :: w) acc = some ([], toks ++ [[]])
  | 0, i, acc, w, toks, hw, h, fuel', hf => by simp [separated_paths_loop] at h
  | fuel + 1, i, acc, w, toks, hw, h, fuel', hf => by
    simp only [separated_paths_loop] at h
    split at h
    · simp only [Option.some.injEq, Prod.mk.injEq] at h
      obtain ⟨hi, hacc⟩ := h
      subst hi
      subst hacc
      rw [List.nil_append] at hf ⊢
      refine loop_comma_ws hw ?_ acc
      simp only [List.length_cons] at hf
      omega
    · rename_i i1 hs
      split at h
      · simp at h
      · obtain ⟨g, rfl⟩ : ∃ g, fuel' = g + 1 := by
          cases fuel' with
          | zero => exact absurd hf (by simp)
          | succ g => exact ⟨g, rfl⟩
        rw [loop_step (comma_sep_append_comma w hs),
          takeWhile_append_cons_neg (by decide), dropWhile_append_cons_neg (by decide)]
        have hlt := comma_sep_length hs
        have hdw : (i1.dropWhile isPathChar).length ≤ i1.length :=
          (List.dropWhile_sublist _).length_le
        refine loop_trailing_comma fuel _ _ hw h g ?_
        simp only [List.length_append, List.length_cons] at hf ⊢
        omega

/-- C3 amended: any input that `path_list` parses completely (empty
remainder) and that is then followed by a comma and only whitespace/newline
or end of input parses successfully: the trailing delimiter yields one extra
empty path appended to the result, with an empty remainder, instead of
failing. -/
theorem c3_trailing_comma_amended (x w : List Char) (ps : List (List Char))
    (hx : path_list x = some ([], ps)) (hw : ∀ c ∈ w, isMultispace c = true) :
    path_list (x ++ ',' :: w) = some ([], ps ++ [[]]) := by
  rw [path_list_eq_map] at hx ⊢
  cases hs : separated_paths x with
  | none => rw [hs] at hx; simp at hx
  | some r =>
    obtain ⟨tail, toks⟩ := r
    rw [hs] at hx
    simp only [Option.map_some'] at hx
    have h' := Option.some.inj hx
    have htail : tail = [] := congrArg Prod.fst h'
    have hps : toks.map rustTrim = ps := congrArg Prod.snd h'
    subst htail
    unfold separated_paths at hs
    have hlen : (x.dropWhile isPathChar ++ ',' :: w).length < (x ++ ',' :: w).length + 1 := by
      have hdw : (x.dropWhile isPathChar).length ≤ x.length :=
        (List.dropWhile_sublist _).length_le
      simp only [List.length_append, List.length_cons]
      omega
    have hloop := loop_trailing_comma (x.length + 1) (x.dropWhile isPathChar)
      [x.takeWhile isPathChar] hw hs ((x ++ ',' :: w).length + 1) hlen
    have hsp : separated_paths (x ++ ',' :: w) = some ([], toks ++ [[]]) := by
      unfold separated_paths
      rw [takeWhile_append_cons_neg (by decide), dropWhile_append_cons_neg (by decide)]
      exact hloop
    rw [hsp]
    simp [hps, rustTrim_nil]

/-- C3 amended witness: `"/a,/b"` parses completely, and `path_list "/a,/b, "`
succeeds with the extra empty path appended. -/
theorem c3_trailing_comma_amended_witness :
    path_list ['/', 'a', ',', '/', 'b'] = some ([], [['/', 'a'], ['/', 'b']]) ∧
    (∀ c ∈ ([' '] : List Char), isMultispace c = true) ∧
    path_list (['/', 'a', ',', '/', 'b'] ++ ',' :: [' ']) =
      some ([], [['/', 'a'], ['/', 'b']] ++ [[]]) := by
  have hx : path_list ['/', 'a', ',', '/', 'b'] = some ([], [['/', 'a'], ['/', 'b']]) := by
    decide
  refine ⟨hx, by decide, ?_⟩
  exact c3_trailing_comma_amended ['/', 'a', ',', '/', 'b'] [' ']
    [['/', 'a'], ['/', 'b']] hx (by decide)

/-- C4 counterexample: a successful `parse_config_line` can yield empty path
values — `parse_config_line "include ,"` returns `Include ["", ""]`. -/
theorem c4_empty_path_counterexample :
    ¬ (∀ (input t : List Char) (d : ConfigLine),
        parse_config_line input = some (t, d) → ∀ p ∈ d.paths, p ≠ []) := by
  intro hall
  exact hall (include_kw ++ [' ', ',']) [] (ConfigLine.Include [[], []])
    (by decide) [] (by decide) rfl

/-- C4 amended: the token rule accepts zero-length tokens, so a successful
parse may yield empty paths; what does hold is that every returned path is
free of commas and newlines. -/
theorem c4_paths_no_comma_newline {input t : List Char} {d : ConfigLine}
    (h : parse_config_line input = some (t, d)) :
    ∀ p ∈ d.paths, ',' ∉ p ∧ '\n' ∉ p := by
  obtain ⟨p1, i2, hin, hpl⟩ := parse_config_line_some h
  rw [path_list_eq_map] at hpl
  cases hs : separated_paths i2 with
  | none => rw [hs] at hpl; simp at hpl
  | some r =>
    obtain ⟨tail, toks⟩ := r
    rw [hs] at hpl
    simp only [Option.map_some'] at hpl
    have hps : toks.map rustTrim = d.paths := congrArg Prod.snd (Option.some.inj hpl)
    intro p hp
    rw [← hps] at hp
    rw [List.mem_map] at hp
    obtain ⟨tok, htok, rfl⟩ := hp
    have hall := separated_paths_tokens hs tok htok
    constructor
    · intro hc
      have hbad := hall ',' (mem_of_mem_rustTrim hc)
      simp [isPathChar] at hbad
    · intro hc
      have hbad := hall '\n' (mem_of_mem_rustTrim hc)
      simp [isPathChar] at hbad

/-- C4 amended witness: `parse_config_line "include /a,b"` yields paths free of
commas and newlines. -/
theorem c4_paths_no_comma_newline_witness :
    parse_config_line (include_kw ++ [' ', '/', 'a', ',', 'b']) =
      some ([], ConfigLine.Include [['/', 'a'], ['b']]) ∧
    ∀ p ∈ (ConfigLine.Include [['/', 'a'], ['b']]).paths, ',' ∉ p ∧ '\n' ∉ p := by
  have hparse : parse_config_line (include_kw ++ [' ', '/', 'a', ',', 'b']) =
      some ([], ConfigLine.Include [['/', 'a'], ['b']]) := by decide
  exact ⟨hparse, c4_paths_no_comma_newline hparse⟩

/-- C5: every successful `parse_config_line` returns a directive carrying at
least one path (`separated_list1` requires a first element). -/
theorem c5_directive_paths_nonempty {input t : List Char} {d : ConfigLine}
    (h : parse_config_line input = some (t, d)) : d.paths ≠ [] := by
  obtain ⟨p1, i2, hin, hpl⟩ := parse_config_line_some h
  exact path_list_nonempty hpl

/-- C5 witness: `parse_config_line "include /a"` yields a non-empty path list. -/
theorem c5_directive_paths_nonempty_witness :
    parse_config_line (include_kw ++ [' ', '/', 'a']) =
      some ([], ConfigLine.Include [['/', 'a']]) ∧
    (ConfigLine.Include [['/', 'a']]).paths ≠ [] := by
  have hparse : parse_config_line (include_kw ++ [' ', '/', 'a']) =
      some ([], ConfigLine.Include [['/', 'a']]) := by decide
  exact ⟨hparse, c5_directive_paths_nonempty hparse⟩

/-- C6 counterexample: `path_list` CAN consume a newline — on `"/a,\n/b"` the
separator's `multispace0` swallows the newline after the comma, the parse
returns both paths and an empty remainder, so the list spans two physical
lines. -/
theorem c6_newline_consumed_counterexample :
    '\n' ∈ ['/', 'a', ',', '\n', '/', 'b'] ∧
    path_list ['/', 'a', ',', '\n', '/', 'b'] = some ([], [['/', 'a'], ['/', 'b']]) :=
  ⟨by decide, by decide⟩

/-- C6 amended: a path token itself never crosses a newline, and only the
separator's whitespace around a comma can consume one; hence on any input
containing no comma, parsing stops at the first newline, which is the first
character of the returned remainder. -/
theorem c6_single_line_no_comma (input : List Char) (h : ',' ∉ input) :
    path_list input = some (input.dropWhile isNotNewline,
      [rustTrim (input.takeWhile isNotNewline)]) := by
  have hcongr : ∀ c ∈ input, isPathChar c = isNotNewline c := by
    intro c hc
    have hne : c ≠ ',' := fun h' => h (h' ▸ hc)
    simp [isPathChar, isNotNewline, hne]
  rw [path_list_eq_map]
  have hsp : separated_paths input = some (input.dropWhile isNotNewline,
      [input.takeWhile isNotNewline]) := by
    unfold separated_paths
    rw [takeWhile_congr_mem hcongr, dropWhile_congr_mem hcongr]
    refine loop_stop (by omega) (comma_sep_eq_none_of_no_comma ?_)
    intro hc
    exact h (mem_of_mem_dropWhile hc)
  rw [hsp]
  simp

/-- C6 amended witness: `path_list "/a\nb"` stops at the newline, leaving
`"\nb"` as the remainder. -/
theorem c6_single_line_no_comma_witness :
    (',' ∉ (['/', 'a', '\n', 'b'] : List Char)) ∧
    path_list ['/', 'a', '\n', 'b'] =
      some ((['/', 'a', '\n', 'b'] : List Char).dropWhile isNotNewline,
        [rustTrim ((['/', 'a', '\n', 'b'] : List Char).takeWhile isNotNewline)]) := by
  refine ⟨by decide, ?_⟩
  exact c6_single_line_no_comma ['/', 'a', '\n', 'b'] (by decide)

/-- C7: when the keyword is not immediately followed by a whitespace
character (space, tab, CR or LF) — including at end of input — the whole
line parse fails, for both keywords. -/
theorem c7_keyword_requires_whitespace (tl : List Char)
    (h : ∀ c cs, tl = c :: cs → isMultispace c = false) :
    parse_config_line (include_kw ++ tl) = none ∧
    parse_config_line (exclude_kw ++ tl) = none := by
  constructor
  · have h1 : include_line (include_kw ++ tl) = none := by
      simp [include_line, tag_append_self, multispace1_none h]
    have h2 : exclude_line (include_kw ++ tl) = none := by
      have hne : tag exclude_kw (include_kw ++ tl) = none := by
        simp only [exclude_kw, include_kw, List.cons_append]
        exact tag_head_ne (by decide)
      simp [exclude_line, hne]
    simp [parse_config_line, h1, h2]
  · have h1 : exclude_line (exclude_kw ++ tl) = none := by
      simp [exclude_line, tag_append_self, multispace1_none h]
    have h2 : include_line (exclude_kw ++ tl) = none := by
      have hne : tag include_kw (exclude_kw ++ tl) = none := by
        simp only [exclude_kw, include_kw, List.cons_append]
        exact tag_head_ne (by decide)
      simp [include_line, hne]
    simp [parse_config_line, h1, h2]

/-- C7 witness: `parse_config_line "includeXYZ /a"` (and the `exclude`
analogue) fails. -/
theorem c7_keyword_requires_whitespace_witness :
    (∀ c cs, (['X', 'Y', 'Z', ' ', '/', 'a'] : List Char) = c :: cs →
      isMultispace c = false) ∧
    parse_config_line (include_kw ++ ['X', 'Y', 'Z', ' ', '/', 'a']) = none ∧
    parse_config_line (exclude_kw ++ ['X', 'Y', 'Z', ' ', '/', 'a']) = none := by
  have hh : ∀ c cs, (['X', 'Y', 'Z', ' ', '/', 'a'] : List Char) = c :: cs →
      isMultispace c = false := by
    intro c cs hcc
    injection hcc with h1 _
    rw [← h1]
    decide
  exact ⟨hh, c7_keyword_requires_whitespace ['X', 'Y', 'Z', ' ', '/', 'a'] hh⟩

/-- C8: the order of the two alternatives in the dispatcher is unobservable:
trying `exclude_line` first gives exactly the same result on every input,
because no input matches both keyword prefixes. -/
theorem c8_alt_order_immaterial (input : List Char) :
    parse_config_line input = parse_config_line_swapped input := by
  unfold parse_config_line parse_config_line_swapped
  cases hi : include_line input with
  | some r1 =>
    cases he : exclude_line input with
    | some r2 =>
      obtain ⟨t1, h1⟩ := include_line_head hi
      obtain ⟨t2, h2⟩ := exclude_line_head he
      rw [h1] at h2
      injection h2 with hc _
      exact absurd hc (by decide)
    | none => rfl
  | none =>
    cases he : exclude_line input with
    | some r2 => rfl
    | none => rfl

/-- C9: on every successful `parse_config_line` the returned remainder is a
suffix of the input — the input is the consumed prefix followed by the
remainder. -/
theorem c9_remainder_is_suffix {input t : List Char} {d : ConfigLine}
    (h : parse_config_line input = some (t, d)) : ∃ pre, input = pre ++ t := by
  obtain ⟨p1, i2, hin, hpl⟩ := parse_config_line_some h
  obtain ⟨p2, hp2⟩ := path_list_suffix hpl
  refine ⟨p1 ++ p2, ?_⟩
  rw [hin, hp2]
  simp [List.append_assoc]

/-- C9 witness: parsing `"include /a\nb"` leaves the remainder `"\nb"`, a
suffix of the input. -/
theorem c9_remainder_is_suffix_witness :
    parse_config_line (include_kw ++ [' ', '/', 'a', '\n', 'b']) =
      some (['\n', 'b'], ConfigLine.Include [['/', 'a']]) ∧
    ∃ pre, include_kw ++ [' ', '/', 'a', '\n', 'b'] = pre ++ ['\n', 'b'] := by
  have hparse : parse_config_line (include_kw ++ [' ', '/', 'a', '\n', 'b']) =
      some (['\n', 'b'], ConfigLine.Include [['/', 'a']]) := by decide
  exact ⟨hparse, c9_remainder_is_suffix hparse⟩

/-- C10: `path_list` is total and the `unwrap` in the conversion of trimmed
tokens to `PathBuf`s can never fail: `path_list` agrees everywhere with the
tokenizer followed by plain trimming, so the conversion's failure branch is
unreachable and `path_list` fails exactly when the tokenizer fails. -/
theorem c10_conversion_never_fails (input : List Char) :
    path_list input = (separated_paths input).map (fun r => (r.1, r.2.map rustTrim)) :=
  path_list_eq_map input

end Overwatch
